import Mathlib

/-!
# ggwave: the protocol catalog, the limit constants and the tone map

A shallow embedding of `include/ggwave/ggwave.h` (class `GGWave`).

Conventions of the embedding.

* A C++ `int` is a 32-bit two's complement integer.  Its values are integers
  (`Int`) and the result of an `int` operation is brought back into the range
  `-2^31 .. 2^31 - 1` by `wrapInt32`.
* A C++ `float` is an IEEE-754 binary32 number (`F32`): every conversion, product
  and sum is rounded to nearest, ties to even, one operation at a time (no fused
  multiply-add, no wider intermediate precision).  The
  `double` returned by `bitFreq` is the widening of a `float`, which is exact, so
  it is kept as the `F32` value.  The `double` constant `kBaseSampleRate` is a
  rational.
* `std::vector<T>` is `List T`; `operator[]`, which is unchecked in C++,
  is the lookup `xs[i]?`.
* `const char *` names are `String`s.
-/

set_option autoImplicit false

/-! ## 32-bit `int` -/

/-- The 32-bit two's complement value of an integer result: the representative of
`x` modulo `2^32` in `-2^31 .. 2^31 - 1`. -/
def wrapInt32 (x : Int) : Int := (x + 2147483648) % 4294967296 - 2147483648

/-! ## binary32 `float` -/

/-- The values of a binary32 `float`: the finite number `m * 2^e`, the two
infinities, or a NaN.  The two zeros are not told apart (they compare equal). -/
inductive F32 where
  | fin (m : Int) (e : Int)
  | pinf
  | ninf
  | nan
  deriving DecidableEq, Repr

namespace F32

/-- The quotient `n / d` rounded to the nearest integer, a tie going to the even
neighbour. -/
def roundNearestEven (n d : Nat) : Nat :=
  if 2 * (n % d) < d then n / d
  else if d < 2 * (n % d) then n / d + 1
  else if (n / d) % 2 = 0 then n / d else n / d + 1

/-- The number of halvings that bring `n` below 2, with `k` steps allowed. -/
def log2Fuel : Nat → Nat → Nat
  | 0, _ => 0
  | k + 1, n => if n < 2 then 0 else log2Fuel k (n / 2) + 1

/-- The position of the leading bit of `n`: the floor of the base-2 logarithm. -/
def floorLog2 (n : Nat) : Nat := log2Fuel n n

/-- The exponent of the last bit binary32 keeps of `n * 2^e` (`n` not zero): that of
a 24-bit significand, and not below `-149` (the subnormal range). -/
def quantum (n : Nat) (e : Int) : Int := max ((floorLog2 n : Int) + e - 23) (-149)

/-- The significand of `n * 2^e` at the exponent `quantum n e`, rounded to nearest
with ties to even when bits are dropped. -/
def significand (n : Nat) (e : Int) : Nat :=
  if quantum n e ≤ e then n * 2 ^ (e - quantum n e).toNat
  else roundNearestEven n (2 ^ (quantum n e - e).toNat)

/-- The exact number `m * 2^e` rounded to binary32, to nearest with ties to even.
A significand that rounds up to `2^24` moves to the next exponent; a result of
`2^128` or more is an infinity. -/
def round (m e : Int) : F32 :=
  if m = 0 then fin 0 (-149)
  else
    let k : Nat := significand m.natAbs e
    let k1 : Nat := if k = 2 ^ 24 then 2 ^ 23 else k
    let q1 : Int := if k = 2 ^ 24 then quantum m.natAbs e + 1 else quantum m.natAbs e
    if 104 < q1 then (if 0 < m then pinf else ninf)
    else if 0 < m then fin (k1 : Int) q1 else fin (-(k1 : Int)) q1

/-- The conversion of an `int` to `float`. -/
def ofInt (i : Int) : F32 := round i 0

/-- The `float` product. -/
def mul : F32 → F32 → F32
  | fin m1 e1, fin m2 e2 => round (m1 * m2) (e1 + e2)
  | nan, _ => nan
  | _, nan => nan
  | fin m _, pinf => if m = 0 then nan else if 0 < m then pinf else ninf
  | fin m _, ninf => if m = 0 then nan else if 0 < m then ninf else pinf
  | pinf, fin m _ => if m = 0 then nan else if 0 < m then pinf else ninf
  | ninf, fin m _ => if m = 0 then nan else if 0 < m then ninf else pinf
  | pinf, pinf => pinf
  | ninf, ninf => pinf
  | pinf, ninf => ninf
  | ninf, pinf => ninf

/-- The `float` sum. -/
def add : F32 → F32 → F32
  | fin m1 e1, fin m2 e2 =>
      round (m1 * ((2 ^ (e1 - min e1 e2).toNat : Nat) : Int) +
        m2 * ((2 ^ (e2 - min e1 e2).toNat : Nat) : Int)) (min e1 e2)
  | nan, _ => nan
  | _, nan => nan
  | pinf, ninf => nan
  | ninf, pinf => nan
  | pinf, _ => pinf
  | _, pinf => pinf
  | ninf, _ => ninf
  | _, ninf => ninf

/-- The rational value of a finite `float`. -/
def toRat : F32 → Option ℚ
  | fin m e => some ((m : ℚ) * (2 : ℚ) ^ e)
  | _ => none

/-- The comparison `a == b` of C++: equal numeric values; a NaN equals nothing. -/
def eq : F32 → F32 → Prop
  | fin m1 e1, fin m2 e2 => (m1 : ℚ) * (2 : ℚ) ^ e1 = (m2 : ℚ) * (2 : ℚ) ^ e2
  | pinf, pinf => True
  | ninf, ninf => True
  | _, _ => False

/-- The comparison `a < b` of C++; false as soon as one side is a NaN. -/
def lt : F32 → F32 → Prop
  | fin m1 e1, fin m2 e2 => (m1 : ℚ) * (2 : ℚ) ^ e1 < (m2 : ℚ) * (2 : ℚ) ^ e2
  | fin _ _, pinf => True
  | ninf, fin _ _ => True
  | ninf, pinf => True
  | _, _ => False

/-- The comparison `==` can be computed. -/
instance decidableEq (a b : F32) : Decidable (eq a b) := by
  cases a <;> cases b <;> unfold eq <;> infer_instance

/-- The comparison `<` can be computed. -/
instance decidableLt (a b : F32) : Decidable (lt a b) := by
  cases a <;> cases b <;> unfold lt <;> infer_instance

/-- The rational `x` is a finite binary32 number: a significand below `2^24` in
magnitude at an exponent between `-149` and `104`. -/
def Representable (x : ℚ) : Prop :=
  ∃ M E : Int, |M| < 2 ^ 24 ∧ -149 ≤ E ∧ E ≤ 104 ∧ x = (M : ℚ) * (2 : ℚ) ^ E

end F32

/-- The struct `GGWave::TxProtocol` (ggwave.h:17-25). -/
structure GGWave.TxProtocol where
  name : String
  freqStart : Int
  framesPerTx : Int
  bytesPerTx : Int
  deriving DecidableEq, Repr

/-- The data members of class `GGWave` that the embedded member functions read or
write (ggwave.h:96-107 for the construction-time constants, ggwave.h:145-155 for
the transmit state).  The constructor is only declared in the header, so the
construction-time constants are free fields. -/
structure GGWave where
  m_sampleRateIn : F32
  m_sampleRateOut : F32
  m_samplesPerFrame : Int
  m_hzPerSample : F32
  m_freqDelta_bin : Int
  m_freqDelta_hz : F32
  m_hasNewTxData : Bool
  m_nECCBytesPerTx : Int
  m_sendDataLength : Int
  m_sendVolume : F32
  m_txDataLength : Int
  m_txData : List Nat
  m_txDataEncoded : List Nat
  m_txProtocol : GGWave.TxProtocol

namespace GGWave

/-! ## Constants (ggwave.h:9-15) -/

/-- The constant `kBaseSampleRate = 48000.0` (a `double` literal). -/
def kBaseSampleRate : ℚ := 48000

/-- The constant `kMaxSamplesPerFrame = 1024`. -/
def kMaxSamplesPerFrame : Int := 1024

/-- The constant `kMaxDataBits = 256`. -/
def kMaxDataBits : Int := 256

/-- The constant `kMaxDataSize = 256`. -/
def kMaxDataSize : Int := 256

/-- The constant `kMaxLength = 140`. -/
def kMaxLength : Int := 140

/-- The constant `kMaxSpectrumHistory = 4`. -/
def kMaxSpectrumHistory : Int := 4

/-- The constant `kMaxRecordedFrames = 1024`. -/
def kMaxRecordedFrames : Int := 1024

/-! ## The protocol catalog (ggwave.h:17-40) -/

/-- The member `int nDataBitsPerTx() const { return 8*bytesPerTx; }`: a 32-bit
`int` product. -/
def TxProtocol.nDataBitsPerTx (p : TxProtocol) : Int := wrapInt32 (8 * p.bytesPerTx)

/-- The function `getTxProtocols()`: the static table `kTxProtocols`, in source order. -/
def getTxProtocols : List TxProtocol :=
  [ { name := "Normal",      freqStart := 40,  framesPerTx := 9, bytesPerTx := 3 },
    { name := "Fast",        freqStart := 40,  framesPerTx := 6, bytesPerTx := 3 },
    { name := "Fastest",     freqStart := 40,  framesPerTx := 3, bytesPerTx := 3 },
    { name := "[U] Normal",  freqStart := 320, framesPerTx := 9, bytesPerTx := 3 },
    { name := "[U] Fast",    freqStart := 320, framesPerTx := 6, bytesPerTx := 3 },
    { name := "[U] Fastest", freqStart := 320, framesPerTx := 3, bytesPerTx := 3 } ]

/-- The member `getDefultTxProtocol() const { return getTxProtocols()[1]; }`.
The unchecked `operator[]` is the partial lookup: `none` would be an
out-of-range access. -/
def getDefultTxProtocol (_g : GGWave) : Option TxProtocol := getTxProtocols[1]?

/-! ## Accessors and the tone map -/

/-- The accessor `hasTxData() const { return m_hasNewTxData; }` (ggwave.h:63). -/
def hasTxData (g : GGWave) : Bool := g.m_hasNewTxData

/-- The member `bitFreq(p, bit)` (ggwave.h:92-94):
`m_hzPerSample*p.freqStart + m_freqDelta_hz*bit`.  Both `int` operands are
converted to `float`, the two products and the sum are `float` operations, and
the sum is returned as a `double`. -/
def bitFreq (g : GGWave) (p : TxProtocol) (bit : Int) : F32 :=
  F32.add (F32.mul g.m_hzPerSample (F32.ofInt p.freqStart))
    (F32.mul g.m_freqDelta_hz (F32.ofInt bit))

/-- The computation of `bitFreq(p, bit)` on an engine with `hz` Hz per bin and a
tone spacing of `fd` Hz rounds nowhere: the two converted operands, the two
products and the sum are binary32 numbers. -/
def BitFreqExact (hz fd : ℚ) (p : TxProtocol) (bit : Int) : Prop :=
  F32.Representable (p.freqStart : ℚ) ∧ F32.Representable (bit : ℚ) ∧
  F32.Representable (hz * (p.freqStart : ℚ)) ∧ F32.Representable (fd * (bit : ℚ)) ∧
  F32.Representable (hz * (p.freqStart : ℚ) + fd * (bit : ℚ))

/-! ## Transmit initialisation -/

/-- Modelled from the spec: the body of `GGWave::init`, which ggwave.h:59 only
declares.  The spec (sections 4.4, 7 and 8) says that `init` validates the payload
length (at most `kMaxLength`), fails with `false` when the length is invalid or
the protocol parameters are inconsistent (a frames-per-group or bytes-per-group
below one), leaving `hasTxData` false and committing nothing of the rejected
transmission; otherwise it FEC-encodes the payload through the frame codec,
stores protocol, length, volume and payload, and sets `hasTxData`.  The frame
codec is an external primitive and is the parameter `encode`. -/
def init (encode : List Nat → TxProtocol → List Nat) (g : GGWave) (textLength : Int)
    (stext : List Nat) (aProtocol : TxProtocol) (volume : Int) : Bool × GGWave :=
  if kMaxLength < textLength ∨ aProtocol.framesPerTx < 1 ∨ aProtocol.bytesPerTx < 1 then
    (false, { g with m_hasNewTxData := false })
  else
    (true,
      { g with
        m_txProtocol := aProtocol
        m_txDataLength := textLength
        m_sendVolume := F32.ofInt volume
        m_txData := stext.take textLength.toNat
        m_txDataEncoded := encode (stext.take textLength.toNat) aProtocol
        m_hasNewTxData := true })

/-! ## Sample inputs -/

/-- An engine as the constructor call `GGWave(48000, 48000, 1024, 4, 2)` could leave
it: 46.875 Hz per bin, tones 93.75 Hz apart, nothing queued for transmission. -/
def sampleEngine : GGWave :=
  { m_sampleRateIn := F32.fin 48000 0
    m_sampleRateOut := F32.fin 48000 0
    m_samplesPerFrame := 1024
    m_hzPerSample := F32.fin 375 (-3)
    m_freqDelta_bin := 1
    m_freqDelta_hz := F32.fin 375 (-2)
    m_hasNewTxData := false
    m_nECCBytesPerTx := 0
    m_sendDataLength := 0
    m_sendVolume := F32.fin 0 0
    m_txDataLength := 0
    m_txData := []
    m_txDataEncoded := []
    m_txProtocol := { name := "Fast", freqStart := 40, framesPerTx := 6, bytesPerTx := 3 } }

/-- A frame codec that adds no parity: enough to run `init` on concrete inputs. -/
def plainEncode (payload : List Nat) (_p : TxProtocol) : List Nat := payload

/-- The engine `sampleEngine` after a successful `init` with the two-byte payload "hi". -/
def busyEngine : GGWave :=
  (init plainEncode sampleEngine 2 [104, 105]
    { name := "Fast", freqStart := 40, framesPerTx := 6, bytesPerTx := 3 } 50).2

/-- A payload of 141 bytes, one more than `kMaxLength`. -/
def longPayload : List Nat := List.replicate 141 97

/-- The last catalog entry, written out. -/
def ultraFastest : TxProtocol :=
  { name := "[U] Fastest", freqStart := 320, framesPerTx := 3, bytesPerTx := 3 }

/-- An engine running at 44100 Hz with 1000 samples per frame: `44.1f` Hz per bin,
which is `5780275 * 2^-17`, and tones twice that apart. -/
def cdRateEngine : GGWave :=
  { sampleEngine with
    m_sampleRateIn := F32.fin 44100 0
    m_sampleRateOut := F32.fin 44100 0
    m_samplesPerFrame := 1000
    m_hzPerSample := F32.fin 5780275 (-17)
    m_freqDelta_hz := F32.fin 5780275 (-16) }

/-- A protocol value outside the catalog whose `bytesPerTx` is `2^28`. -/
def wideProtocol : TxProtocol :=
  { name := "Wide", freqStart := 40, framesPerTx := 6, bytesPerTx := 268435456 }

/-- The catalog entry the default lookup is expected to return, written out. -/
def fastEntry : TxProtocol :=
  { name := "Fast", freqStart := 40, framesPerTx := 6, bytesPerTx := 3 }


/-! ## Helper lemmas: binary32 rounding -/

/-- The leading-bit position found by `log2Fuel` is not too large. -/
theorem log2Fuel_pow_le : ∀ (k n : Nat), n ≠ 0 → 2 ^ F32.log2Fuel k n ≤ n := by
  intro k
  induction k with
  | zero =>
    intro n hn
    simp only [F32.log2Fuel, pow_zero]
    omega
  | succ k ih =>
    intro n hn
    unfold F32.log2Fuel
    split
    · simp only [pow_zero]
      omega
    · have h2 : n / 2 ≠ 0 := by omega
      have := ih (n / 2) h2
      rw [pow_succ]
      omega

/-- With enough steps allowed, the leading-bit position found by `log2Fuel` is not
too small. -/
theorem lt_log2Fuel : ∀ (k n : Nat), n ≤ k → n < 2 ^ (F32.log2Fuel k n + 1) := by
  intro k
  induction k with
  | zero =>
    intro n hn
    simp only [F32.log2Fuel, zero_add, pow_one]
    omega
  | succ k ih =>
    intro n hn
    unfold F32.log2Fuel
    split
    · simp only [zero_add, pow_one]
      omega
    · have h2 : n / 2 ≤ k := by omega
      have := ih (n / 2) h2
      rw [pow_succ]
      omega

/-- The function `floorLog2` is the floor of the base-2 logarithm: `n` lies between
`2 ^ floorLog2 n` and the next power of two. -/
theorem floorLog2_spec (n : Nat) (hn : n ≠ 0) :
    2 ^ F32.floorLog2 n ≤ n ∧ n < 2 ^ (F32.floorLog2 n + 1) :=
  ⟨log2Fuel_pow_le n n hn, lt_log2Fuel n n le_rfl⟩

/-- An exact quotient is left alone by `roundNearestEven`. -/
theorem roundNearestEven_of_dvd (n d : Nat) (hd : 0 < d) (h : d ∣ n) :
    F32.roundNearestEven n d = n / d := by
  have hmod : n % d = 0 := Nat.mod_eq_zero_of_dvd h
  simp [F32.roundNearestEven, hmod, hd]


/-- Powers of two are positive. -/
theorem two_zpow_pos (z : Int) : (0 : ℚ) < (2 : ℚ) ^ z := zpow_pos (by norm_num) z

/-- A natural power of two at an integer exponent known to be non-negative. -/
theorem two_pow_toNat (z : Int) (hz : 0 ≤ z) : ((2 ^ z.toNat : Nat) : ℚ) = (2 : ℚ) ^ z := by
  have h : (2 : ℚ) ^ z = (2 : ℚ) ^ ((z.toNat : Nat) : Int) := by rw [Int.toNat_of_nonneg hz]
  rw [h, zpow_natCast]
  push_cast
  rfl

/-- The exponent kept for a binary32 number `M * 2^E` is at most `E`. -/
theorem quantum_le (n : Nat) (e M E : Int) (hn : n ≠ 0) (hM : |M| < 2 ^ 24)
    (hE : -149 ≤ E) (h : (n : ℚ) * (2 : ℚ) ^ e = |(M : ℚ)| * (2 : ℚ) ^ E) :
    F32.quantum n e ≤ E := by
  have hL : (2 : ℚ) ^ ((F32.floorLog2 n : Nat) : Int) ≤ (n : ℚ) := by
    rw [zpow_natCast]
    exact_mod_cast (floorLog2_spec n hn).1
  have hMlt : |(M : ℚ)| < (2 : ℚ) ^ (24 : Int) := by
    have : ((|M| : Int) : ℚ) < (((2 : Int) ^ 24 : Int) : ℚ) := Int.cast_lt.mpr hM
    rw [Int.cast_abs] at this
    rw [show (2 : ℚ) ^ (24 : Int) = (((2 : Int) ^ 24 : Int) : ℚ) by norm_num]
    exact this
  have hq1 : (F32.floorLog2 n : Int) + e - 23 ≤ E := by
    by_contra hcon
    push_neg at hcon
    have h1 : (2 : ℚ) ^ ((F32.floorLog2 n : Int) + e) ≤ (n : ℚ) * (2 : ℚ) ^ e := by
      rw [zpow_add₀ (by norm_num : (2 : ℚ) ≠ 0)]
      exact mul_le_mul_of_nonneg_right hL (two_zpow_pos e).le
    have h2 : |(M : ℚ)| * (2 : ℚ) ^ E < (2 : ℚ) ^ (24 + E) := by
      rw [zpow_add₀ (by norm_num : (2 : ℚ) ≠ 0)]
      exact mul_lt_mul_of_pos_right hMlt (two_zpow_pos E)
    have h3 : (2 : ℚ) ^ (24 + E) ≤ (2 : ℚ) ^ ((F32.floorLog2 n : Int) + e) :=
      zpow_le_zpow_right₀ (by norm_num) (by omega)
    rw [h] at h1
    linarith
  exact max_le hq1 hE

/-- The magnitude of an integer as a rational. -/
theorem natAbs_cast_rat (m : Int) : ((m.natAbs : Nat) : ℚ) = |(m : ℚ)| := by
  rw [← Int.cast_abs, Int.abs_eq_natAbs]
  rfl

/-- When `n * 2^e` is a binary32 number the significand kept by the rounding carries
its exact value. -/
theorem significand_exact (n : Nat) (e M E : Int) (hn : n ≠ 0) (hM : |M| < 2 ^ 24)
    (hE : -149 ≤ E) (h : (n : ℚ) * (2 : ℚ) ^ e = |(M : ℚ)| * (2 : ℚ) ^ E) :
    (F32.significand n e : ℚ) * (2 : ℚ) ^ F32.quantum n e = (n : ℚ) * (2 : ℚ) ^ e := by
  have hqE := quantum_le n e M E hn hM hE h
  have h2 : (2 : ℚ) ≠ 0 := by norm_num
  unfold F32.significand
  split
  · rename_i hqe
    rw [Nat.cast_mul, two_pow_toNat _ (by omega), mul_assoc, ← zpow_add₀ h2]
    congr 2
    omega
  · rename_i hqe
    have hqe2 : e < F32.quantum n e := by omega
    have hnM : (n : ℚ) = ((M.natAbs * 2 ^ (E - e).toNat : Nat) : ℚ) := by
      rw [Nat.cast_mul, two_pow_toNat _ (by omega), natAbs_cast_rat]
      have h3 : (2 : ℚ) ^ (E - e) = (2 : ℚ) ^ E / (2 : ℚ) ^ e := zpow_sub₀ h2 E e
      rw [h3, ← mul_div_assoc, ← h, mul_div_assoc, div_self (ne_of_gt (two_zpow_pos e)), mul_one]
    have hnM2 : n = M.natAbs * 2 ^ (E - e).toNat := Nat.cast_injective hnM
    have hpow : 2 ^ (F32.quantum n e - e).toNat ∣ 2 ^ (E - e).toNat :=
      pow_dvd_pow 2 (by omega)
    have hdvd : 2 ^ (F32.quantum n e - e).toNat ∣ n :=
      hpow.trans (Dvd.intro_left _ hnM2.symm)
    rw [roundNearestEven_of_dvd n _ (by positivity) hdvd]
    rw [Nat.cast_div hdvd (by positivity), two_pow_toNat _ (by omega)]
    rw [div_mul_eq_mul_div, div_eq_iff (ne_of_gt (two_zpow_pos _)), mul_assoc, ← zpow_add₀ h2]
    congr 2
    omega

/-- Rounding leaves a binary32 number alone: when the exact value `m * 2^e` is
representable, the rounded result is that value. -/
theorem round_exact (m e : Int) (x : ℚ) (hx : (m : ℚ) * (2 : ℚ) ^ e = x)
    (hrep : F32.Representable x) : F32.toRat (F32.round m e) = some x := by
  obtain ⟨M, E, hM, hElo, hEhi, hxM⟩ := hrep
  have h2 : (2 : ℚ) ≠ 0 := by norm_num
  by_cases hm : m = 0
  · subst hm
    have hx0 : x = 0 := by rw [← hx]; simp
    simp [F32.round, F32.toRat, hx0]
  · have hn0 : m.natAbs ≠ 0 := Int.natAbs_ne_zero.mpr hm
    have habs : ((m.natAbs : Nat) : ℚ) * (2 : ℚ) ^ e = |(M : ℚ)| * (2 : ℚ) ^ E := by
      rw [natAbs_cast_rat, ← abs_of_pos (two_zpow_pos e), ← abs_mul, hx, hxM, abs_mul,
        abs_of_pos (two_zpow_pos E)]
    have hqE := quantum_le m.natAbs e M E hn0 hM hElo habs
    have hsig := significand_exact m.natAbs e M E hn0 hM hElo habs
    have hMlt : |(M : ℚ)| < (2 : ℚ) ^ (24 : Int) := by
      have : ((|M| : Int) : ℚ) < (((2 : Int) ^ 24 : Int) : ℚ) := Int.cast_lt.mpr hM
      rw [Int.cast_abs] at this
      rw [show (2 : ℚ) ^ (24 : Int) = (((2 : Int) ^ 24 : Int) : ℚ) by norm_num]
      exact this
    -- the significand and exponent after a carry
    have hk1 : (((if F32.significand m.natAbs e = 2 ^ 24 then 2 ^ 23
          else F32.significand m.natAbs e : Nat)) : ℚ) *
        (2 : ℚ) ^ (if F32.significand m.natAbs e = 2 ^ 24 then F32.quantum m.natAbs e + 1
          else F32.quantum m.natAbs e) = ((m.natAbs : Nat) : ℚ) * (2 : ℚ) ^ e := by
      split
      · rename_i hk
        rw [← hsig, hk, zpow_add_one₀ h2]
        push_cast
        ring
      · exact hsig
    have hq1 : (if F32.significand m.natAbs e = 2 ^ 24 then F32.quantum m.natAbs e + 1
          else F32.quantum m.natAbs e) ≤ 104 := by
      split
      · rename_i hk
        have hlt : (2 : ℚ) ^ F32.quantum m.natAbs e < (2 : ℚ) ^ E := by
          have h5 : ((2 ^ 24 : Nat) : ℚ) * (2 : ℚ) ^ F32.quantum m.natAbs e =
              |(M : ℚ)| * (2 : ℚ) ^ E := by rw [← hk, hsig, habs]
          have h6 : |(M : ℚ)| * (2 : ℚ) ^ E < (2 : ℚ) ^ (24 : Int) * (2 : ℚ) ^ E :=
            mul_lt_mul_of_pos_right hMlt (two_zpow_pos E)
          have h7 : ((2 ^ 24 : Nat) : ℚ) = (2 : ℚ) ^ (24 : Int) := by norm_num
          rw [h7] at h5
          rw [← h5] at h6
          exact lt_of_mul_lt_mul_left h6 (two_zpow_pos 24).le
        have := (zpow_lt_zpow_iff_right₀ (by norm_num : (1 : ℚ) < 2)).mp hlt
        omega
      · omega
    unfold F32.round
    rw [if_neg hm]
    simp only []
    rw [if_neg (by omega)]
    rcases lt_or_gt_of_ne hm with hneg | hpos
    · rw [if_neg (by omega)]
      simp only [F32.toRat, Option.some.injEq]
      rw [Int.cast_neg, Int.cast_natCast, neg_mul, hk1, natAbs_cast_rat, ← hx,
        abs_of_neg (by exact_mod_cast hneg)]
      ring
    · rw [if_pos hpos]
      simp only [F32.toRat, Option.some.injEq]
      rw [Int.cast_natCast, hk1, natAbs_cast_rat, ← hx, abs_of_pos (by exact_mod_cast hpos)]

/-- A significand below `2^24` in magnitude at an exponent in range is a binary32
number. -/
theorem representable_mk (M E : Int) (hlo : -16777216 < M) (hhi : M < 16777216)
    (hE : -149 ≤ E) (hE2 : E ≤ 104) (x : ℚ) (hx : x = (M : ℚ) * (2 : ℚ) ^ E) :
    F32.Representable x :=
  ⟨M, E, abs_lt.mpr ⟨by norm_num; omega, by norm_num; omega⟩, hE, hE2, hx⟩

/-- Converting a representable `int` to `float` is exact. -/
theorem ofInt_exact (i : Int) (h : F32.Representable (i : ℚ)) :
    F32.toRat (F32.ofInt i) = some (i : ℚ) :=
  round_exact i 0 _ (by simp) h

/-- A `float` product whose exact value is representable is exact. -/
theorem mul_exact (a b : F32) (x y : ℚ) (ha : F32.toRat a = some x)
    (hb : F32.toRat b = some y) (h : F32.Representable (x * y)) :
    F32.toRat (F32.mul a b) = some (x * y) := by
  cases a <;> cases b <;> simp only [F32.toRat, Option.some.injEq, reduceCtorEq] at ha hb
  rename_i m1 e1 m2 e2
  show F32.toRat (F32.round (m1 * m2) (e1 + e2)) = some (x * y)
  apply round_exact _ _ _ _ h
  rw [← ha, ← hb, zpow_add₀ (by norm_num : (2 : ℚ) ≠ 0)]
  push_cast
  ring

/-- A `float` sum whose exact value is representable is exact. -/
theorem add_exact (a b : F32) (x y : ℚ) (ha : F32.toRat a = some x)
    (hb : F32.toRat b = some y) (h : F32.Representable (x + y)) :
    F32.toRat (F32.add a b) = some (x + y) := by
  cases a <;> cases b <;> simp only [F32.toRat, Option.some.injEq, reduceCtorEq] at ha hb
  rename_i m1 e1 m2 e2
  show F32.toRat (F32.round (m1 * ((2 ^ (e1 - min e1 e2).toNat : Nat) : Int) +
    m2 * ((2 ^ (e2 - min e1 e2).toNat : Nat) : Int)) (min e1 e2)) = some (x + y)
  apply round_exact _ _ _ _ h
  have h2 : (2 : ℚ) ≠ 0 := by norm_num
  have hmin1 : min e1 e2 ≤ e1 := min_le_left _ _
  have hmin2 : min e1 e2 ≤ e2 := min_le_right _ _
  rw [Int.cast_add, Int.cast_mul, Int.cast_mul, Int.cast_natCast, Int.cast_natCast,
    two_pow_toNat _ (by omega), two_pow_toNat _ (by omega), add_mul, mul_assoc, mul_assoc,
    ← zpow_add₀ h2, ← zpow_add₀ h2, ← ha, ← hb]
  congr 3 <;> omega

/-- When nothing rounds, `bitFreq` returns the exact value of its formula. -/
theorem bitFreq_of_exact (g : GGWave) (p : TxProtocol) (b : Int) (hz fd : ℚ)
    (hhz : F32.toRat g.m_hzPerSample = some hz)
    (hfd : F32.toRat g.m_freqDelta_hz = some fd) (hex : BitFreqExact hz fd p b) :
    F32.toRat (bitFreq g p b) = some (hz * (p.freqStart : ℚ) + fd * (b : ℚ)) := by
  obtain ⟨h1, h2, h3, h4, h5⟩ := hex
  unfold bitFreq
  exact add_exact _ _ _ _ (mul_exact _ _ _ _ hhz (ofInt_exact _ h1) h3)
    (mul_exact _ _ _ _ hfd (ofInt_exact _ h2) h4) h5

/-- The engine `sampleEngine` has 46.875 Hz per bin and tones 93.75 Hz apart. -/
theorem sampleEngine_toRat :
    F32.toRat sampleEngine.m_hzPerSample = some (375 / 8) ∧
    F32.toRat sampleEngine.m_freqDelta_hz = some (375 / 4) := by
  constructor <;> norm_num [sampleEngine, F32.toRat]

/-- The engine `cdRateEngine` has `44.1f` Hz per bin and tones twice that apart. -/
theorem cdRateEngine_toRat :
    F32.toRat cdRateEngine.m_hzPerSample = some (5780275 / 131072) ∧
    F32.toRat cdRateEngine.m_freqDelta_hz = some (5780275 / 65536) := by
  constructor <;> norm_num [cdRateEngine, F32.toRat]

/-- On `sampleEngine` nothing rounds in `bitFreq` for a catalog protocol and a bit
position from 0 to 255. -/
theorem sampleEngine_exact (p : TxProtocol) (hp : p ∈ getTxProtocols) (b : Int)
    (hb0 : 0 ≤ b) (hb : b < 256) : BitFreqExact (375 / 8) (375 / 4) p b := by
  have hfs : p.freqStart = 40 ∨ p.freqStart = 320 := by
    revert p
    decide
  have h8 : (2 : ℚ) ^ (-3 : Int) = 1 / 8 := by norm_num
  have h4 : (2 : ℚ) ^ (-2 : Int) = 1 / 4 := by norm_num
  refine ⟨?_, ?_, ?_, ?_, ?_⟩
  · exact representable_mk p.freqStart 0 (by omega) (by omega) (by omega) (by omega) _
      (by simp)
  · exact representable_mk b 0 (by omega) (by omega) (by omega) (by omega) _ (by simp)
  · refine representable_mk (375 * p.freqStart) (-3) (by omega) (by omega) (by omega)
      (by omega) _ ?_
    rw [h8]
    push_cast
    ring
  · refine representable_mk (375 * b) (-2) (by omega) (by omega) (by omega) (by omega) _ ?_
    rw [h4]
    push_cast
    ring
  · refine representable_mk (375 * p.freqStart + 750 * b) (-3) (by omega) (by omega)
      (by omega) (by omega) _ ?_
    rw [h8]
    push_cast
    ring

/-- On `sampleEngine`, for every catalog protocol and every bit position from 0 to 255,
`bitFreq` returns the exact value `46.875 * freqStart + 93.75 * bit`. -/
theorem sampleEngine_bitFreq (p : TxProtocol) (hp : p ∈ getTxProtocols) (b : Int)
    (hb0 : 0 ≤ b) (hb : b < 256) :
    F32.toRat (bitFreq sampleEngine p b) =
      some (375 / 8 * (p.freqStart : ℚ) + 375 / 4 * (b : ℚ)) :=
  bitFreq_of_exact sampleEngine p b _ _ sampleEngine_toRat.1 sampleEngine_toRat.2
    (sampleEngine_exact p hp b hb0 hb)

set_option maxRecDepth 4000 in
/-- The value `bitFreq` returns on `cdRateEngine` for the protocol "Fast" at bit 0. -/
theorem bitFreq_cdRate_zero : bitFreq cdRateEngine fastEntry 0 = F32.fin 14450688 (-13) := by
  have h1 : F32.ofInt 40 = F32.fin 10485760 (-18) := by rfl
  have h2 : F32.mul (F32.fin 5780275 (-17)) (F32.fin 10485760 (-18)) =
      F32.fin 14450688 (-13) := by rfl
  have h3 : F32.ofInt 0 = F32.fin 0 (-149) := by rfl
  have h4 : F32.mul (F32.fin 5780275 (-16)) (F32.fin 0 (-149)) = F32.fin 0 (-149) := by rfl
  have h5 : F32.add (F32.fin 14450688 (-13)) (F32.fin 0 (-149)) =
      F32.fin 14450688 (-13) := by rfl
  show F32.add (F32.mul (F32.fin 5780275 (-17)) (F32.ofInt 40))
    (F32.mul (F32.fin 5780275 (-16)) (F32.ofInt 0)) = _
  rw [h1, h2, h3, h4, h5]

set_option maxRecDepth 4000 in
/-- The value `bitFreq` returns on `cdRateEngine` for the protocol "Fast" at bit 1. -/
theorem bitFreq_cdRate_one : bitFreq cdRateEngine fastEntry 1 = F32.fin 15173222 (-13) := by
  have h1 : F32.ofInt 40 = F32.fin 10485760 (-18) := by rfl
  have h2 : F32.mul (F32.fin 5780275 (-17)) (F32.fin 10485760 (-18)) =
      F32.fin 14450688 (-13) := by rfl
  have h3 : F32.ofInt 1 = F32.fin 8388608 (-23) := by rfl
  have h4 : F32.mul (F32.fin 5780275 (-16)) (F32.fin 8388608 (-23)) =
      F32.fin 11560550 (-17) := by rfl
  have h5 : F32.add (F32.fin 14450688 (-13)) (F32.fin 11560550 (-17)) =
      F32.fin 15173222 (-13) := by rfl
  show F32.add (F32.mul (F32.fin 5780275 (-17)) (F32.ofInt 40))
    (F32.mul (F32.fin 5780275 (-16)) (F32.ofInt 1)) = _
  rw [h1, h2, h3, h4, h5]

/-- An integer in the range of a 32-bit `int` is its own 32-bit value. -/
theorem wrapInt32_of_fits (x : Int) (hlo : -2147483648 ≤ x) (hhi : x < 2147483648) :
    wrapInt32 x = x := by
  unfold wrapInt32
  omega

/-- The 32-bit value of an integer always fits a 32-bit `int`. -/
theorem wrapInt32_range (x : Int) : -2147483648 ≤ wrapInt32 x ∧ wrapInt32 x < 2147483648 := by
  unfold wrapInt32
  omega

/-- On its success path the modelled `init` reports `true` and queues data. -/
theorem init_accepts (encode : List Nat → TxProtocol → List Nat) (g : GGWave)
    (textLength : Int) (stext : List Nat) (aProtocol : TxProtocol) (volume : Int)
    (hlen : textLength ≤ kMaxLength) (hf : 1 ≤ aProtocol.framesPerTx)
    (hb : 1 ≤ aProtocol.bytesPerTx) :
    (init encode g textLength stext aProtocol volume).1 = true ∧
      hasTxData (init encode g textLength stext aProtocol volume).2 = true := by
  have hcond : ¬ (kMaxLength < textLength ∨ aProtocol.framesPerTx < 1 ∨
      aProtocol.bytesPerTx < 1) := by
    rintro (h | h | h) <;> omega
  simp [init, hcond, hasTxData]

/-- The engine `busyEngine` has data queued. -/
theorem busyEngine_hasTxData : hasTxData busyEngine = true := by
  unfold busyEngine
  exact (init_accepts plainEncode sampleEngine 2 [104, 105] _ 50
    (by decide) (by decide) (by decide)).2

/-- A list whose elements have pairwise distinct images under `f` holds at most one
element with a given image. -/
theorem filter_length_le_one_of_nodup {α β : Type} [DecidableEq β] (f : α → β) (b : β) :
    ∀ xs : List α, (xs.map f).Nodup → (xs.filter (fun x => f x == b)).length ≤ 1 := by
  intro xs
  induction xs with
  | nil => intro _; simp
  | cons x xs ih =>
    intro h
    rw [List.map_cons, List.nodup_cons] at h
    by_cases hx : f x = b
    · have hnone : xs.filter (fun y => f y == b) = [] := by
        rw [List.filter_eq_nil_iff]
        intro y hy hyb
        apply h.1
        rw [hx]
        have : f y = b := by simpa using hyb
        rw [← this]
        exact List.mem_map_of_mem f hy
      simp [List.filter_cons, hx, hnone]
    · have := ih h.2
      simpa [List.filter_cons, hx] using this

/-- Every field of every catalog entry, and eight times its `bytesPerTx`, fits a 32-bit
`int`: on the catalog no arithmetic of the header overflows. -/
theorem catalog_fits_int32 :
    ∀ p ∈ getTxProtocols,
      (0 ≤ p.freqStart ∧ p.freqStart < 2 ^ 31) ∧
      (0 ≤ p.framesPerTx ∧ p.framesPerTx < 2 ^ 31) ∧
      (0 ≤ p.bytesPerTx ∧ 8 * p.bytesPerTx < 2 ^ 31) := by
  decide

/-! ## The claims -/

/-- C2: the catalog returned by `getTxProtocols()` has exactly 6 entries, the first
three with `freqStart = 40` and the last three with `freqStart = 320`, and two
entries at different indices differ in `freqStart` or in `framesPerTx`. -/
theorem catalog_shape :
    getTxProtocols.length = 6 ∧
    (∀ i : Fin getTxProtocols.length, i.val < 3 → (getTxProtocols.get i).freqStart = 40) ∧
    (∀ i : Fin getTxProtocols.length, 3 ≤ i.val → (getTxProtocols.get i).freqStart = 320) ∧
    (∀ i j : Fin getTxProtocols.length, i ≠ j →
      (getTxProtocols.get i).freqStart ≠ (getTxProtocols.get j).freqStart ∨
      (getTxProtocols.get i).framesPerTx ≠ (getTxProtocols.get j).framesPerTx) := by
  decide

/-- Witness for C2: the entries at indices 1 and 4 share `framesPerTx` and are told
apart by `freqStart`. -/
theorem catalog_shape_witness :
    (getTxProtocols.get ⟨1, by decide⟩).freqStart = 40 ∧
    (getTxProtocols.get ⟨4, by decide⟩).freqStart = 320 ∧
    ((getTxProtocols.get ⟨1, by decide⟩).freqStart ≠
        (getTxProtocols.get ⟨4, by decide⟩).freqStart ∨
      (getTxProtocols.get ⟨1, by decide⟩).framesPerTx ≠
        (getTxProtocols.get ⟨4, by decide⟩).framesPerTx) :=
  ⟨catalog_shape.2.1 ⟨1, by decide⟩ (by decide),
   catalog_shape.2.2.1 ⟨4, by decide⟩ (by decide),
   catalog_shape.2.2.2 ⟨1, by decide⟩ ⟨4, by decide⟩ (by decide)⟩

/-- C3: every entry of the catalog returned by `getTxProtocols()` has
`framesPerTx ≥ 1` and `bytesPerTx ≥ 1`. -/
theorem catalog_entries_positive :
    ∀ p ∈ getTxProtocols, 1 ≤ p.framesPerTx ∧ 1 ≤ p.bytesPerTx := by
  decide

/-- Witness for C3: the entry "[U] Fastest" is in the catalog and has both fields at
least one. -/
theorem catalog_entries_positive_witness :
    ultraFastest ∈ getTxProtocols ∧
      1 ≤ ultraFastest.framesPerTx ∧ 1 ≤ ultraFastest.bytesPerTx :=
  ⟨by decide, catalog_entries_positive ultraFastest (by decide)⟩

/-- C4: the limit constants have the listed values: `kBaseSampleRate = 48000`,
`kMaxSamplesPerFrame = 1024`, `kMaxDataBits = 256`, `kMaxDataSize = 256`,
`kMaxLength = 140`, `kMaxSpectrumHistory = 4`, `kMaxRecordedFrames = 1024`. -/
theorem limit_constants :
    kBaseSampleRate = 48000 ∧ kMaxSamplesPerFrame = 1024 ∧ kMaxDataBits = 256 ∧
    kMaxDataSize = 256 ∧ kMaxLength = 140 ∧ kMaxSpectrumHistory = 4 ∧
    kMaxRecordedFrames = 1024 :=
  ⟨rfl, rfl, rfl, rfl, rfl, rfl, rfl⟩

/-- C5: for every engine state, payload, protocol and volume (and every frame
codec), when the length passed to `init` exceeds `kMaxLength` the call returns
`false` and `hasTxData()` is false afterwards. -/
theorem init_rejects_long (encode : List Nat → TxProtocol → List Nat) (g : GGWave)
    (textLength : Int) (stext : List Nat) (aProtocol : TxProtocol) (volume : Int)
    (hlen : kMaxLength < textLength) :
    (init encode g textLength stext aProtocol volume).1 = false ∧
      hasTxData (init encode g textLength stext aProtocol volume).2 = false := by
  simp [init, hlen, hasTxData]

/-- Witness for C5: an engine that has data queued rejects a 141-byte payload and has no
data queued afterwards. -/
theorem init_rejects_long_witness :
    hasTxData busyEngine = true ∧ kMaxLength < 141 ∧
      (init plainEncode busyEngine 141 longPayload fastEntry 50).1 = false ∧
      hasTxData (init plainEncode busyEngine 141 longPayload fastEntry 50).2 = false :=
  ⟨busyEngine_hasTxData, by decide,
    init_rejects_long plainEncode busyEngine 141 longPayload fastEntry 50 (by decide)⟩


/-- C6, as amended: on an engine with finite `hz` Hz per bin and tone spacing `fd`,
whenever nothing rounds in binary32 (the converted operands, the two products and the
sum are representable) `bitFreq(p, b)` is `hz * p.freqStart + fd * b`; under the same
condition `bitFreq(p, 0)` is `hz * p.freqStart`, and the values at `b` and `b + 1` are
exactly `fd` apart. -/
theorem bitFreq_formula (g : GGWave) (p : TxProtocol) (b : Int) (hz fd : ℚ)
    (hhz : F32.toRat g.m_hzPerSample = some hz)
    (hfd : F32.toRat g.m_freqDelta_hz = some fd) :
    (BitFreqExact hz fd p b →
      F32.toRat (bitFreq g p b) = some (hz * (p.freqStart : ℚ) + fd * (b : ℚ))) ∧
    (BitFreqExact hz fd p 0 →
      F32.toRat (bitFreq g p 0) = some (hz * (p.freqStart : ℚ))) ∧
    (BitFreqExact hz fd p b → BitFreqExact hz fd p (b + 1) →
      ∃ x y : ℚ, F32.toRat (bitFreq g p b) = some x ∧
        F32.toRat (bitFreq g p (b + 1)) = some y ∧ y - x = fd) := by
  refine ⟨bitFreq_of_exact g p b hz fd hhz hfd, ?_, ?_⟩
  · intro h0
    have h := bitFreq_of_exact g p 0 hz fd hhz hfd h0
    simpa using h
  · intro hb hb1
    refine ⟨_, _, bitFreq_of_exact g p b hz fd hhz hfd hb,
      bitFreq_of_exact g p (b + 1) hz fd hhz hfd hb1, ?_⟩
    push_cast
    ring

/-- Counterexample for C6: with `44.1f` Hz per bin (44100 Hz, 1000 samples per frame)
and the protocol "Fast", `bitFreq` returns 1764 at bit 0 where the exact formula gives
`28901375/16384`, and the values at bits 0 and 1 are `361267/4096` apart where the
spacing is `5780275/65536`. -/
theorem bitFreq_formula_counterexample :
    F32.toRat cdRateEngine.m_hzPerSample = some (5780275 / 131072) ∧
    F32.toRat cdRateEngine.m_freqDelta_hz = some (5780275 / 65536) ∧
    F32.toRat (bitFreq cdRateEngine fastEntry 0) = some 1764 ∧
    (5780275 / 131072 : ℚ) * ((fastEntry.freqStart : Int) : ℚ) +
      5780275 / 65536 * ((0 : Int) : ℚ) ≠ 1764 ∧
    F32.toRat (bitFreq cdRateEngine fastEntry 1) = some (7586611 / 4096) ∧
    (7586611 / 4096 : ℚ) - 1764 ≠ 5780275 / 65536 := by
  refine ⟨cdRateEngine_toRat.1, cdRateEngine_toRat.2, ?_, ?_, ?_, ?_⟩
  · rw [bitFreq_cdRate_zero]
    norm_num [F32.toRat]
  · norm_num [fastEntry]
  · rw [bitFreq_cdRate_one]
    norm_num [F32.toRat]
  · norm_num

/-- Witness for C6: on `sampleEngine` nothing rounds for the protocol "Fast" at bits
0, 3 and 4, so the exact formula holds there. -/
theorem bitFreq_formula_witness :
    BitFreqExact (375 / 8) (375 / 4) fastEntry 3 ∧
    F32.toRat (bitFreq sampleEngine fastEntry 3) =
      some (375 / 8 * ((fastEntry.freqStart : Int) : ℚ) + 375 / 4 * ((3 : Int) : ℚ)) ∧
    F32.toRat (bitFreq sampleEngine fastEntry 0) =
      some (375 / 8 * ((fastEntry.freqStart : Int) : ℚ)) ∧
    (∃ x y : ℚ, F32.toRat (bitFreq sampleEngine fastEntry 3) = some x ∧
      F32.toRat (bitFreq sampleEngine fastEntry (3 + 1)) = some y ∧ y - x = 375 / 4) :=
  ⟨sampleEngine_exact fastEntry (by decide) 3 (by decide) (by decide),
    (bitFreq_formula sampleEngine fastEntry 3 _ _ sampleEngine_toRat.1 sampleEngine_toRat.2).1
      (sampleEngine_exact fastEntry (by decide) 3 (by decide) (by decide)),
    (bitFreq_formula sampleEngine fastEntry 3 _ _ sampleEngine_toRat.1 sampleEngine_toRat.2).2.1
      (sampleEngine_exact fastEntry (by decide) 0 (by decide) (by decide)),
    (bitFreq_formula sampleEngine fastEntry 3 _ _ sampleEngine_toRat.1 sampleEngine_toRat.2).2.2
      (sampleEngine_exact fastEntry (by decide) 3 (by decide) (by decide))
      (sampleEngine_exact fastEntry (by decide) (3 + 1) (by decide) (by decide))⟩

/-- C7: `getDefultTxProtocol()` looks up index 1 of the catalog, index 1 is a valid
index so the lookup does not fail, and the entry found is "Fast" with
`freqStart = 40`, `framesPerTx = 6`, `bytesPerTx = 3`. -/
theorem default_protocol (g : GGWave) :
    getDefultTxProtocol g = getTxProtocols[1]? ∧
    1 < getTxProtocols.length ∧
    getDefultTxProtocol g =
      some { name := "Fast", freqStart := 40, framesPerTx := 6, bytesPerTx := 3 } := by
  refine ⟨rfl, by decide, rfl⟩

/-- C8, as amended: for every `TxProtocol` value `p` whose `bytesPerTx` lies between
`-2^28` and `2^28 - 1`, so that the product fits a 32-bit `int`,
`p.nDataBitsPerTx()` is `8 * p.bytesPerTx`; for every catalog entry it is 24. -/
theorem nDataBitsPerTx_eq (p : TxProtocol) :
    (-268435456 ≤ p.bytesPerTx → p.bytesPerTx < 268435456 →
      p.nDataBitsPerTx = 8 * p.bytesPerTx) ∧
    (p ∈ getTxProtocols → p.nDataBitsPerTx = 24) := by
  constructor
  · intro hlo hhi
    exact wrapInt32_of_fits _ (by omega) (by omega)
  · revert p
    decide

/-- Counterexample for C8: for the protocol value with `bytesPerTx = 2^28` the 32-bit
product is `-2^31`, not `8 * 2^28 = 2^31`. -/
theorem nDataBitsPerTx_counterexample :
    wideProtocol.bytesPerTx = 268435456 ∧
    wideProtocol.nDataBitsPerTx = -2147483648 ∧
    wideProtocol.nDataBitsPerTx ≠ 8 * wideProtocol.bytesPerTx := by
  decide

/-- Witness for C8: the catalog entry "[U] Fastest" has `bytesPerTx = 3`, within range,
and carries `8 * 3 = 24` bits per group. -/
theorem nDataBitsPerTx_eq_witness :
    ultraFastest ∈ getTxProtocols ∧
    ultraFastest.nDataBitsPerTx = 8 * ultraFastest.bytesPerTx ∧
    ultraFastest.nDataBitsPerTx = 24 :=
  ⟨by decide, (nDataBitsPerTx_eq ultraFastest).1 (by decide) (by decide),
    (nDataBitsPerTx_eq ultraFastest).2 (by decide)⟩

/-- C10: the names of the catalog entries are pairwise distinct, so a lookup by name
selects at most one entry. -/
theorem catalog_names_distinct :
    (getTxProtocols.map TxProtocol.name).Nodup ∧
    (∀ i j : Fin getTxProtocols.length,
      (getTxProtocols.get i).name = (getTxProtocols.get j).name → i = j) ∧
    (∀ n : String, (getTxProtocols.filter (fun p => p.name == n)).length ≤ 1) := by
  have hnodup : (getTxProtocols.map TxProtocol.name).Nodup := by decide
  refine ⟨hnodup, by decide, fun n => ?_⟩
  exact filter_length_le_one_of_nodup TxProtocol.name n getTxProtocols hnodup

/-- Witness for C10: the entries at indices 1 and 4 ("Fast" and "[U] Fast") have
different names, and the name "[U] Fast" selects at most one entry. -/
theorem catalog_names_distinct_witness :
    (getTxProtocols.get ⟨1, by decide⟩).name ≠ (getTxProtocols.get ⟨4, by decide⟩).name ∧
    (getTxProtocols.filter (fun p => p.name == "[U] Fast")).length ≤ 1 :=
  ⟨fun h => absurd (catalog_names_distinct.2.1 ⟨1, by decide⟩ ⟨4, by decide⟩ h) (by decide),
    catalog_names_distinct.2.2 "[U] Fast"⟩

end GGWave
